import Mathlib

/-!
Verification development for the `json-schema-detector` repository.

The Go sources are shallowly embedded: Go `interface{}` values decoded from
JSON become `JSONValue`, the `types.Property` / `types.JSONSchema` structs
become a mutual inductive pair, maps become association lists (a Go `nil`
map is the empty list), and fallible functions return `Except`.
-/

set_option maxHeartbeats 1000000

/-- A decoded JSON value (Go `interface{}` after `json.Unmarshal`).
Go decodes every JSON number to `float64`; the development only needs
integer-valued numbers, modelled as `Int`. -/
inductive JSONValue where
  | null : JSONValue
  | bool (b : Bool) : JSONValue
  | num (n : Int) : JSONValue
  | str (s : String) : JSONValue
  | arr (elems : List JSONValue) : JSONValue
  | obj (fields : List (String × JSONValue)) : JSONValue

/-- Association-list lookup, the embedding of a Go map read
(`v, ok := m[k]`): the first binding of the key wins. -/
def lookupA {α : Type} (k : String) : List (String × α) → Option α
  | [] => none
  | (k', v) :: rest => if k' = k then some v else lookupA k rest

mutual
/-- Embedding of `fmt.Sprintf("%v", x)` for decoded JSON values, used by
`analyzer.isEqualValue`.  Strings print bare, booleans as `true`/`false`,
`nil` as `<nil>`, slices space-separated in brackets and maps as
`map[k:v ...]`. -/
def fmtV : JSONValue → String
  | .null => "<nil>"
  | .bool true => "true"
  | .bool false => "false"
  | .num n => toString n
  | .str s => s
  | .arr es => "[" ++ fmtVList es ++ "]"
  | .obj fs => "map[" ++ fmtVFields fs ++ "]"
def fmtVList : List JSONValue → String
  | [] => ""
  | [v] => fmtV v
  | v :: rest => fmtV v ++ " " ++ fmtVList rest
def fmtVFields : List (String × JSONValue) → String
  | [] => ""
  | [(k, v)] => k ++ ":" ++ fmtV v
  | (k, v) :: rest => k ++ ":" ++ fmtV v ++ " " ++ fmtVFields rest
end

/-- `analyzer.isEqualValue`: compares two values by their `%v` string form. -/
def isEqualValue (a1 a2 : JSONValue) : Bool :=
  fmtV a1 == fmtV a2

/-- `analyzer.updateDefaultValue`, as a pure function from the two `default`
fields to the resulting `default` of the existing node. -/
def updateDefaultValue : Option JSONValue → Option JSONValue → Option JSONValue
  | none, some d => some d
  | some x, some y => if isEqualValue x y then some x else none
  | d, none => d

mutual
/-- `types.Property` (a schema node).  The Go `Extensions` side-channel map
is omitted: no embedded operation reads or writes it. -/
inductive Property where
  | mk (type : String)
       (properties : List (String × Property))
       (items : Option Property)
       (required : List String)
       (enum : List JSONValue)
       (oneOf : List JSONSchema)
       (anyOf : List JSONSchema)
       (description : String)
       (default : Option JSONValue)
       (preserveDefault : Bool)
/-- `types.JSONSchema` (the root schema envelope). -/
inductive JSONSchema where
  | mk (schemaURI : String)
       (type : String)
       (properties : List (String × Property))
       (items : Option Property)
       (required : List String)
       (enum : List JSONValue)
       (oneOf : List JSONSchema)
       (anyOf : List JSONSchema)
       (description : String)
       (default : Option JSONValue)
end

def Property.type : Property → String
  | .mk t _ _ _ _ _ _ _ _ _ => t

def Property.properties : Property → List (String × Property)
  | .mk _ ps _ _ _ _ _ _ _ _ => ps

def Property.items : Property → Option Property
  | .mk _ _ it _ _ _ _ _ _ _ => it

def Property.required : Property → List String
  | .mk _ _ _ r _ _ _ _ _ _ => r

def Property.enum : Property → List JSONValue
  | .mk _ _ _ _ e _ _ _ _ _ => e

def Property.oneOf : Property → List JSONSchema
  | .mk _ _ _ _ _ oo _ _ _ _ => oo

def Property.anyOf : Property → List JSONSchema
  | .mk _ _ _ _ _ _ ao _ _ _ => ao

def Property.description : Property → String
  | .mk _ _ _ _ _ _ _ d _ _ => d

def Property.default : Property → Option JSONValue
  | .mk _ _ _ _ _ _ _ _ d _ => d

def Property.preserveDefault : Property → Bool
  | .mk _ _ _ _ _ _ _ _ _ pd => pd

def JSONSchema.schemaURI : JSONSchema → String
  | .mk u _ _ _ _ _ _ _ _ _ => u

def JSONSchema.type : JSONSchema → String
  | .mk _ t _ _ _ _ _ _ _ _ => t

def JSONSchema.properties : JSONSchema → List (String × Property)
  | .mk _ _ ps _ _ _ _ _ _ _ => ps

def JSONSchema.items : JSONSchema → Option Property
  | .mk _ _ _ it _ _ _ _ _ _ => it

def JSONSchema.required : JSONSchema → List String
  | .mk _ _ _ _ r _ _ _ _ _ => r

def JSONSchema.enum : JSONSchema → List JSONValue
  | .mk _ _ _ _ _ e _ _ _ _ => e

def JSONSchema.oneOf : JSONSchema → List JSONSchema
  | .mk _ _ _ _ _ _ oo _ _ _ => oo

def JSONSchema.anyOf : JSONSchema → List JSONSchema
  | .mk _ _ _ _ _ _ _ ao _ _ => ao

def JSONSchema.description : JSONSchema → String
  | .mk _ _ _ _ _ _ _ _ d _ => d

def JSONSchema.default : JSONSchema → Option JSONValue
  | .mk _ _ _ _ _ _ _ _ _ d => d

/-- `fieldmanager.propertyToSchema`: copies the structural fields; the
Go function does not copy `Default`, and `$schema` stays empty. -/
def propertyToSchema : Property → JSONSchema
  | .mk t props it req en oo ao desc _ _ =>
    JSONSchema.mk "" t props it req en oo ao desc none

/-- `types.AnalysisStatistics`.  The count maps are association lists with
integer values (`map[string]int`). -/
structure AnalysisStatistics where
  totalObjects : Int
  uniqueStructures : Int
  fieldFrequency : List (String × Int)
  typeDistribution : List (String × Int)
  enumCandidates : List (String × List JSONValue)

/-- Reading a Go counter map: a missing key reads as `0`. -/
def getCount (k : String) (m : List (String × Int)) : Int :=
  match lookupA k m with
  | some v => v
  | none => 0

/-- Go map assignment `m[k] = v`: overwrite the first binding, or append. -/
def setKey (k : String) (v : Int) : List (String × Int) → List (String × Int)
  | [] => [(k, v)]
  | (k', v') :: rest => if k' = k then (k, v) :: rest else (k', v') :: setKey k v rest

/-- Go `m[k]++`. -/
def incKey (k : String) (m : List (String × Int)) : List (String × Int) :=
  setKey k (getCount k m + 1) m

/-- Go `for key, count := range n { e[key] += count }` (the statistics merge
loops in `analyzer.MergeResults`). -/
def addCounts (e n : List (String × Int)) : List (String × Int) :=
  n.foldl (fun acc kv => setKey kv.1 (getCount kv.1 acc + kv.2) acc) e

mutual
/-- `analyzer.analyzeValue`: infers a schema node from a decoded JSON value
and threads the statistics accumulator through the walk. -/
def analyzeValue : JSONValue → String → AnalysisStatistics →
    Except String (Property × AnalysisStatistics)
  | .obj fields, path, stats => analyzeObject fields path stats
  | .arr elems, path, stats => analyzeArray elems path stats
  | .str s, _, stats =>
    let stats' := { stats with typeDistribution := incKey "string" stats.typeDistribution }
    .ok (Property.mk "string" [] none [] [] [] [] ""
          (if s = "" then none else some (.str s)) false, stats')
  | .num n, _, stats =>
    let stats' := { stats with typeDistribution := incKey "number" stats.typeDistribution }
    .ok (Property.mk "number" [] none [] [] [] [] ""
          (if n = 0 then none else some (.num n)) false, stats')
  | .bool b, _, stats =>
    let stats' := { stats with typeDistribution := incKey "boolean" stats.typeDistribution }
    .ok (Property.mk "boolean" [] none [] [] [] [] "" (some (.bool b)) false, stats')
  | .null, _, stats =>
    let stats' := { stats with typeDistribution := incKey "null" stats.typeDistribution }
    .ok (Property.mk "null" [] none [] [] [] [] "" none false, stats')
termination_by v _ _ => (sizeOf v, 1)
/-- `analyzer.analyzeObject`: counts the object, then folds over the fields. -/
def analyzeObject (fields : List (String × JSONValue)) (path : String)
    (stats : AnalysisStatistics) : Except String (Property × AnalysisStatistics) :=
  let stats0 := { stats with
    typeDistribution := incKey "object" stats.typeDistribution,
    totalObjects := stats.totalObjects + 1 }
  analyzeObjectFields fields path stats0 [] []
termination_by (sizeOf fields, 1)
/-- The field loop of `analyzer.analyzeObject`: per field, bump the
field-frequency counter, infer the child, record it in `properties` and
append the key to `required`. -/
def analyzeObjectFields : List (String × JSONValue) → String → AnalysisStatistics →
    List (String × Property) → List String → Except String (Property × AnalysisStatistics)
  | [], _, stats, accProps, accReq =>
    .ok (Property.mk "object" accProps none accReq [] [] [] "" none false, stats)
  | (k, v) :: rest, path, stats, accProps, accReq =>
    let stats1 := { stats with fieldFrequency := incKey k stats.fieldFrequency }
    match analyzeValue v (path ++ "." ++ k) stats1 with
    | .error e => .error e
    | .ok (fp, stats2) =>
      analyzeObjectFields rest path stats2 (accProps ++ [(k, fp)]) (accReq ++ [k])
termination_by fields _ _ _ _ => (sizeOf fields, 0)
/-- `analyzer.analyzeArray`: counts the array node; an empty array yields no
`items`, otherwise only the first element is inferred into `items`. -/
def analyzeArray : List JSONValue → String → AnalysisStatistics →
    Except String (Property × AnalysisStatistics)
  | elems, path, stats =>
    let stats0 := { stats with typeDistribution := incKey "array" stats.typeDistribution }
    match elems with
    | [] => .ok (Property.mk "array" [] none [] [] [] [] "" none false, stats0)
    | x :: _ =>
      match analyzeValue x (path ++ "[0]") stats0 with
      | .error e => .error e
      | .ok (ip, stats1) =>
        .ok (Property.mk "array" [] (some ip) [] [] [] [] "" none false, stats1)
termination_by elems _ _ => (sizeOf elems, 1)
end

mutual
/-- `analyzer.mergeProperty`: reconcile defaults (unless the existing node
preserves its default), then recursively merge object properties and array
item schemas.  Type checks guard only the recursive parts. -/
def mergeProperty (ex nw : Property) : Property :=
  match ex with
  | .mk t props it req en oo ao desc dflt pd =>
    let dflt' := if pd then dflt else updateDefaultValue dflt nw.default
    let props' :=
      if t = "object" ∧ nw.type = "object" then
        mergeOver props nw.properties ++
          nw.properties.filter (fun kv => (lookupA kv.1 props).isNone)
      else props
    let it' :=
      if t = "array" ∧ nw.type = "array" then
        match it, nw.items with
        | some ei, some ni => some (mergeProperty ei ni)
        | ei, _ => ei
      else it
    .mk t props' it' req en oo ao desc dflt' pd
termination_by (sizeOf ex, 1)
/-- The "key present in both" half of `analyzer.mergeProperties`: every
existing entry is kept, merged with the incoming node of the same key when
there is one. -/
def mergeOver : List (String × Property) → List (String × Property) → List (String × Property)
  | [], _ => []
  | (k, p) :: rest, nw =>
    (k, match lookupA k nw with
        | some np => mergeProperty p np
        | none => p) :: mergeOver rest nw
termination_by l _ => (sizeOf l, 0)
end

/-- `analyzer.mergeProperties`: existing keys are kept (merged where the
incoming map also has the key), and incoming keys absent from the existing
map are inserted verbatim. -/
def mergeProperties (e n : List (String × Property)) : List (String × Property) :=
  mergeOver e n ++ n.filter (fun kv => (lookupA kv.1 e).isNone)

/-- `types.AnalysisResult` (the `Metadata` block is omitted: none of the
embedded operations touches it). -/
structure AnalysisResult where
  schema : JSONSchema
  statistics : Option AnalysisStatistics

/-- Replace the `properties` of a schema, the effect of the in-place
`mergeProperties` call on `existing.Schema`. -/
def JSONSchema.withProperties : JSONSchema → List (String × Property) → JSONSchema
  | .mk u t _ it req en oo ao desc d, ps => .mk u t ps it req en oo ao desc d

/-- `analyzer.MergeResults`: merges the schema property maps in place, then,
when both results carry statistics, sums the field-frequency and
type-distribution maps key by key and adds the object totals.  No other
statistics field is touched, and nothing happens to statistics when either
side carries none. -/
def MergeResults (existing nw : AnalysisResult) : AnalysisResult :=
  let schema' := existing.schema.withProperties
    (mergeProperties existing.schema.properties nw.schema.properties)
  let stats' :=
    match existing.statistics, nw.statistics with
    | some es, some ns =>
      some { es with
        fieldFrequency := addCounts es.fieldFrequency ns.fieldFrequency,
        typeDistribution := addCounts es.typeDistribution ns.typeDistribution,
        totalObjects := es.totalObjects + ns.totalObjects }
    | es, _ => es
  ⟨schema', stats'⟩

mutual
/-- `validator.countFieldsRecursive`: each map entry counts one and its value
is recursed into; array elements are recursed into without being counted;
primitives count nothing. -/
def countFieldsRecursive : JSONValue → Nat
  | .obj fields => countObjFields fields
  | .arr elems => countArrElems elems
  | .null => 0
  | .bool _ => 0
  | .num _ => 0
  | .str _ => 0
/-- The map loop of `countFieldsRecursive`. -/
def countObjFields : List (String × JSONValue) → Nat
  | [] => 0
  | (_, v) :: rest => 1 + countFieldsRecursive v + countObjFields rest
/-- The slice loop of `countFieldsRecursive`. -/
def countArrElems : List JSONValue → Nat
  | [] => 0
  | v :: rest => countFieldsRecursive v + countArrElems rest
end

mutual
/-- Size measure used for recursion through `propertyToSchema`, which
rebuilds a `JSONSchema` out of a `Property` and therefore does not shrink
`sizeOf`.  Only the structural components traversed by the field manager
count. -/
def Property.nodeSize : Property → Nat
  | .mk _ props it _ _ oo ao _ _ _ =>
    1 + propsSize props + itemsSize it + variantsSize oo + variantsSize ao
def JSONSchema.nodeSize : JSONSchema → Nat
  | .mk _ _ props it _ _ oo ao _ _ =>
    1 + propsSize props + itemsSize it + variantsSize oo + variantsSize ao
def propsSize : List (String × Property) → Nat
  | [] => 0
  | (_, p) :: rest => 1 + p.nodeSize + propsSize rest
def itemsSize : Option Property → Nat
  | none => 0
  | some p => 1 + p.nodeSize
def variantsSize : List JSONSchema → Nat
  | [] => 0
  | v :: rest => 1 + v.nodeSize + variantsSize rest
end

theorem nodeSize_propertyToSchema (p : Property) :
    (propertyToSchema p).nodeSize = p.nodeSize := by
  cases p with
  | mk t props it req en oo ao desc d pd =>
    simp [propertyToSchema, Property.nodeSize, JSONSchema.nodeSize]

theorem nodeSize_items {p : Property} {it : Property} (h : p.items = some it) :
    it.nodeSize < p.nodeSize := by
  cases p with
  | mk t props i req en oo ao desc d pd =>
    simp [Property.items] at h
    subst h
    simp [Property.nodeSize, itemsSize]
    omega

theorem propsSize_lookup {k : String} {props : List (String × Property)} {p : Property}
    (h : lookupA k props = some p) : p.nodeSize < propsSize props := by
  induction props with
  | nil => simp [lookupA] at h
  | cons hd tl ih =>
    obtain ⟨k', p'⟩ := hd
    simp only [lookupA] at h
    split at h
    · cases h
      simp [propsSize]; omega
    · have := ih h
      simp [propsSize]; omega

theorem propsSize_mem {k : String} {props : List (String × Property)} {p : Property}
    (h : (k, p) ∈ props) : p.nodeSize < propsSize props := by
  induction props with
  | nil => simp at h
  | cons hd tl ih =>
    rw [List.mem_cons] at h
    rcases h with h | h
    · cases h; simp [propsSize]; omega
    · have := ih h
      obtain ⟨k', p'⟩ := hd
      simp [propsSize]; omega

theorem variantsSize_mem {v : JSONSchema} {l : List JSONSchema}
    (h : v ∈ l) : v.nodeSize < variantsSize l := by
  induction l with
  | nil => simp at h
  | cons hd tl ih =>
    rw [List.mem_cons] at h
    rcases h with h | h
    · subst h; simp [variantsSize]; omega
    · have := ih h
      simp [variantsSize]; omega

/-- The error outcomes of `fieldmanager` path operations, one constructor
per distinct `fmt.Errorf` site. -/
inductive FindErr where
  | emptyPath : FindErr
  | noValidSegments : FindErr
  | endOfPath : FindErr
  | leadingIndex : FindErr
  | fieldNotFound (name : String) : FindErr
  | fieldLookup (name : String) (inner : FindErr) : FindErr
  | notAnArray (name : String) : FindErr
  | mustBeArray (field idx : String) : FindErr
  | cannotDescend (seg : String) : FindErr
  | pathParse (inner : FindErr) : FindErr
deriving DecidableEq

/-- All-digit parse helper for the `strconv.Atoi` model. -/
def parseAllDigits : List Char → Option Nat
  | [] => some 0
  | c :: rest =>
    if c.isDigit then
      match parseAllDigits rest with
      | some v => some ((c.toNat - 48) * 10 ^ rest.length + v)
      | none => none
    else none

/-- `strconv.Atoi`: optional sign, at least one digit, and the value must
fit in a 64-bit `int` (Go returns `ErrRange` otherwise). -/
def atoi (s : String) : Option Int :=
  match s.data with
  | [] => none
  | '+' :: rest =>
    if rest.isEmpty then none
    else match parseAllDigits rest with
      | some v => if v ≤ 9223372036854775807 then some (Int.ofNat v) else none
      | none => none
  | '-' :: rest =>
    if rest.isEmpty then none
    else match parseAllDigits rest with
      | some v => if v ≤ 9223372036854775808 then some (-(Int.ofNat v)) else none
      | none => none
  | cs =>
    match parseAllDigits cs with
    | some v => if v ≤ 9223372036854775807 then some (Int.ofNat v) else none
    | none => none

/-- `strings.Split(s, ".")` on the character list of `s`. -/
def splitDotChars : List Char → List (List Char)
  | [] => [[]]
  | c :: rest =>
    if c = '.' then [] :: splitDotChars rest
    else
      match splitDotChars rest with
      | [] => [[c]]
      | seg :: segs => (c :: seg) :: segs

/-- `strings.Split(s, ".")`. -/
def splitDot (s : String) : List String :=
  (splitDotChars s.data).map String.mk

/-- `strings.HasPrefix(s, ".")` on the character list of `s`. -/
def hasDotPfx : List Char → Bool
  | [] => false
  | c :: _ => c == '.'

/-- `fieldmanager.parseJSONPath`: reject the empty path, strip one leading
dot, split on dots, drop empty segments, and reject an all-empty result. -/
def parseJSONPath (jsonPath : String) : Except FindErr (List String) :=
  if jsonPath = "" then .error .emptyPath
  else
    let p := if hasDotPfx jsonPath.data then String.mk jsonPath.data.tail else jsonPath
    let cleanSegments := (splitDot p).filter (fun seg => seg ≠ "")
    if cleanSegments.isEmpty then .error .noValidSegments
    else .ok cleanSegments

mutual
/-- `fieldmanager.findFieldInSchema`: look the name up in `properties`,
falling back to the `oneOf` variants and then the `anyOf` variants. -/
def findFieldInSchema (schema : JSONSchema) (fieldName : String) : Except FindErr Property :=
  match schema with
  | .mk _ _ props _ _ _ oo ao _ _ =>
    match lookupA fieldName props with
    | some f => .ok f
    | none =>
      match findInVariants oo fieldName with
      | some f => .ok f
      | none =>
        match findInVariants ao fieldName with
        | some f => .ok f
        | none => .error (.fieldNotFound fieldName)
termination_by (sizeOf schema, 1)
/-- The variant loop of `findFieldInSchema`: first successful variant wins. -/
def findInVariants : List JSONSchema → String → Option Property
  | [], _ => none
  | v :: rest, fieldName =>
    match findFieldInSchema v fieldName with
    | .ok f => some f
    | .error _ => findInVariants rest fieldName
termination_by l _ => (sizeOf l, 0)
end

/-- `fieldmanager.findFieldRecursive`. -/
def findFieldRecursive (schema : JSONSchema) (path : List String) (index : Nat) :
    Except FindErr Property :=
  if hlen : index ≥ path.length then .error .endOfPath
  else
    let segment := path.get ⟨index, by omega⟩
    if (atoi segment).isSome then
      if index = 0 then .error .leadingIndex
      else
        let prevSegment := path.get ⟨index - 1, by omega⟩
        match findFieldInSchema schema prevSegment with
        | .error e => .error (.fieldLookup prevSegment e)
        | .ok prevField =>
          if prevField.type ≠ "array" ∨ prevField.items.isNone then
            .error (.notAnArray prevSegment)
          else
            if index = path.length - 1 then
              match prevField.items with
              | some it => .ok it
              | none => .error (.notAnArray prevSegment)
            else
              match prevField.items with
              | some it => findFieldRecursive (propertyToSchema it) path (index + 1)
              | none => .error (.notAnArray prevSegment)
    else
      if index = path.length - 1 then findFieldInSchema schema segment
      else
        match findFieldInSchema schema segment with
        | .error e => .error e
        | .ok field =>
          if hnext : index + 1 < path.length then
            let nextSegment := path.get ⟨index + 1, hnext⟩
            if (atoi nextSegment).isSome then
              if field.type = "array" ∧ field.items.isSome then
                if index + 2 ≥ path.length then
                  match field.items with
                  | some it => .ok it
                  | none => .error (.mustBeArray segment nextSegment)
                else
                  match field.items with
                  | some it => findFieldRecursive (propertyToSchema it) path (index + 2)
                  | none => .error (.mustBeArray segment nextSegment)
              else .error (.mustBeArray segment nextSegment)
            else
              if field.type = "object" ∧ ¬field.properties.isEmpty then
                findFieldRecursive (propertyToSchema field) path (index + 1)
              else .error (.cannotDescend segment)
          else
            if field.type = "object" ∧ ¬field.properties.isEmpty then
              findFieldRecursive (propertyToSchema field) path (index + 1)
            else .error (.cannotDescend segment)
termination_by path.length - index
decreasing_by all_goals omega

/-- `fieldmanager.FindField`: parse the JSON path (wrapping a parse failure)
and resolve it from the root schema. -/
def FindField (schema : JSONSchema) (jsonPath : String) : Except FindErr Property :=
  match parseJSONPath jsonPath with
  | .error e => .error (.pathParse e)
  | .ok path => findFieldRecursive schema path 0

/-- One decimal digit character. -/
def digitChar : Nat → Char
  | 0 => '0' | 1 => '1' | 2 => '2' | 3 => '3' | 4 => '4'
  | 5 => '5' | 6 => '6' | 7 => '7' | 8 => '8' | _ => '9'

/-- Decimal digit characters of a natural number (`fmt.Sprintf("%d", n)`). -/
def natChars (n : Nat) : List Char :=
  if h : n < 10 then [digitChar n]
  else natChars (n / 10) ++ [digitChar (n % 10)]
termination_by n
decreasing_by exact Nat.div_lt_self (by omega) (by omega)

/-- `fmt.Sprintf("%d", n)`. -/
def natToStr (n : Nat) : String :=
  String.mk (natChars n)

/-- The synthetic variant path segment `fmt.Sprintf("%s[%d]", tag, i)`. -/
def markerStr (tag : String) (i : Nat) : String :=
  tag ++ "[" ++ natToStr i ++ "]"

/-- The prefix-joining step of `fieldmanager.listFieldsRecursive`:
`fullPath := fieldName; if prefix != "" { fullPath = prefix + "." + fieldName }`. -/
def joinStr (pfx seg : String) : String :=
  if pfx = "" then seg else pfx ++ "." ++ seg

mutual
/-- `fieldmanager.listFieldsRecursive`: list every property path, recursing
into object children, array `items` children (under a `.0` marker) and
`oneOf`/`anyOf` variants (under synthetic `oneOf[i]`/`anyOf[i]` markers). -/
def listFieldsRecursive (schema : JSONSchema) (pfx : String) : List String :=
  match schema with
  | .mk _ _ props _ _ _ oo ao _ _ =>
    listFieldsProps props pfx ++
      listFieldsVariants oo pfx "oneOf" 0 ++ listFieldsVariants ao pfx "anyOf" 0
termination_by (schema.nodeSize, 1)
decreasing_by
  all_goals simp_wf
  · simp [JSONSchema.nodeSize]; omega
  · simp [JSONSchema.nodeSize]; omega
  · simp [JSONSchema.nodeSize]; omega
/-- The property loop of `listFieldsRecursive`. -/
def listFieldsProps : List (String × Property) → String → List String
  | [], _ => []
  | (fieldName, field) :: rest, pfx =>
    let fullPath := joinStr pfx fieldName
    fullPath ::
      ((if field.type = "object" ∧ ¬field.properties.isEmpty then
          listFieldsRecursive (propertyToSchema field) fullPath
        else []) ++
       (if field.type = "array" then
          match h : field.items with
          | some it => listFieldsRecursive (propertyToSchema it) (fullPath ++ ".0")
          | none => []
        else []) ++
       listFieldsProps rest pfx)
termination_by l _ => (propsSize l, 0)
decreasing_by
  all_goals simp_wf
  · rw [nodeSize_propertyToSchema]; simp [propsSize]; omega
  · have := nodeSize_items h
    rw [nodeSize_propertyToSchema]; simp [propsSize]; omega
  · simp [propsSize]; omega
/-- The variant loop of `listFieldsRecursive` (`tag` is `"oneOf"` or
`"anyOf"`, `i` the running index of the `range` loop). -/
def listFieldsVariants : List JSONSchema → String → String → Nat → List String
  | [], _, _, _ => []
  | v :: rest, pfx, tag, i =>
    listFieldsRecursive v (joinStr pfx (markerStr tag i)) ++
      listFieldsVariants rest pfx tag (i + 1)
termination_by l _ _ _ => (variantsSize l, 0)
decreasing_by
  all_goals simp_wf
  · simp [variantsSize]; omega
  · simp [variantsSize]; omega
end

/-- `fieldmanager.ListFields`. -/
def ListFields (schema : JSONSchema) : List String :=
  listFieldsRecursive schema ""

theorem mergeProperty_default (ex nw : Property) :
    (mergeProperty ex nw).default =
      if ex.preserveDefault then ex.default
      else updateDefaultValue ex.default nw.default := by
  cases ex with
  | mk t props it req en oo ao desc dflt pd =>
    rw [mergeProperty.eq_def]
    simp [Property.default, Property.preserveDefault]

/-- C1: merging any incoming node into an existing node with
`preserveDefault = true` leaves the existing node's `default` unchanged —
the default-reconciliation step is skipped entirely. -/
theorem claim_C1_preserve_default (ex nw : Property)
    (h : ex.preserveDefault = true) :
    (mergeProperty ex nw).default = ex.default := by
  rw [mergeProperty_default, h]
  simp

def exC1 : Property := Property.mk "string" [] none [] [] [] [] "" (some (.str "keep")) true

def nwC1 : Property := Property.mk "string" [] none [] [] [] [] "" (some (.str "other")) false

theorem claim_C1_preserve_default_witness :
    exC1.preserveDefault = true ∧ (mergeProperty exC1 nwC1).default = some (.str "keep") :=
  ⟨rfl, (claim_C1_preserve_default exC1 nwC1 rfl).trans rfl⟩

/-- C2: when the existing node does not preserve its default, the merged
default adopts a newly observed default, is nulled when both are set and
differ by string form, and keeps the existing value when they agree. -/
theorem claim_C2_default_rules (ex nw : Property)
    (h : ex.preserveDefault = false) :
    (∀ d, ex.default = none → nw.default = some d →
      (mergeProperty ex nw).default = some d) ∧
    (∀ x y, ex.default = some x → nw.default = some y → fmtV x ≠ fmtV y →
      (mergeProperty ex nw).default = none) ∧
    (∀ x y, ex.default = some x → nw.default = some y → fmtV x = fmtV y →
      (mergeProperty ex nw).default = ex.default) := by
  refine ⟨?_, ?_, ?_⟩
  · intro d he hn
    rw [mergeProperty_default, h, he, hn]
    simp [updateDefaultValue]
  · intro x y he hn hne
    rw [mergeProperty_default, h, he, hn]
    simp [updateDefaultValue, isEqualValue]
    intro hc
    exact absurd hc hne
  · intro x y he hn heq
    rw [mergeProperty_default, h, he, hn]
    simp [updateDefaultValue, isEqualValue, heq]

def exC2a : Property := Property.mk "string" [] none [] [] [] [] "" none false

def nwC2a : Property := Property.mk "string" [] none [] [] [] [] "" (some (.str "v")) false

def exC2b : Property := Property.mk "string" [] none [] [] [] [] "" (some (.str "admin")) false

def nwC2b : Property := Property.mk "string" [] none [] [] [] [] "" (some (.str "user")) false

def exC2c : Property := Property.mk "number" [] none [] [] [] [] "" (some (.num 7)) false

def nwC2c : Property := Property.mk "number" [] none [] [] [] [] "" (some (.num 7)) false

theorem claim_C2_default_rules_witness :
    (mergeProperty exC2a nwC2a).default = some (.str "v") ∧
    (mergeProperty exC2b nwC2b).default = none ∧
    (mergeProperty exC2c nwC2c).default = some (.num 7) :=
  ⟨(claim_C2_default_rules exC2a nwC2a rfl).1 _ rfl rfl,
   (claim_C2_default_rules exC2b nwC2b rfl).2.1 _ _ rfl rfl (by simp [fmtV]),
   ((claim_C2_default_rules exC2c nwC2c rfl).2.2 _ _ rfl rfl (by simp [fmtV])).trans rfl⟩

/-- C10: even when the two nodes have different `type`s, a per-node merge
with `preserveDefault = false` still runs the default-reconciliation rules
on the pair; only the recursive structural merging is type-guarded. -/
theorem claim_C10_cross_type_default (ex nw : Property)
    (ht : ex.type ≠ nw.type) (h : ex.preserveDefault = false) :
    (mergeProperty ex nw).default = updateDefaultValue ex.default nw.default := by
  rw [mergeProperty_default, h]
  simp

def exC10 : Property := Property.mk "string" [] none [] [] [] [] "" none false

def nwC10 : Property := Property.mk "object" [] none [] [] [] [] "" (some (.num 2)) false

theorem claim_C10_cross_type_default_witness :
    exC10.type ≠ nwC10.type ∧ (mergeProperty exC10 nwC10).default = some (.num 2) :=
  ⟨by decide, (claim_C10_cross_type_default exC10 nwC10 (by decide) rfl).trans rfl⟩

/-- C5: scalar inference — a string node's default is the value unless the
string is empty; a number node's default is the value unless it is zero; a
boolean node's default is always set; a null node never gets a default. -/
theorem claim_C5_scalar_inference (s : String) (n : Int) (b : Bool)
    (path : String) (stats : AnalysisStatistics) :
    analyzeValue (.str s) path stats =
      .ok (Property.mk "string" [] none [] [] [] [] ""
            (if s = "" then none else some (.str s)) false,
           { stats with typeDistribution := incKey "string" stats.typeDistribution }) ∧
    analyzeValue (.num n) path stats =
      .ok (Property.mk "number" [] none [] [] [] [] ""
            (if n = 0 then none else some (.num n)) false,
           { stats with typeDistribution := incKey "number" stats.typeDistribution }) ∧
    analyzeValue (.bool b) path stats =
      .ok (Property.mk "boolean" [] none [] [] [] [] "" (some (.bool b)) false,
           { stats with typeDistribution := incKey "boolean" stats.typeDistribution }) ∧
    analyzeValue .null path stats =
      .ok (Property.mk "null" [] none [] [] [] [] "" none false,
           { stats with typeDistribution := incKey "null" stats.typeDistribution }) := by
  refine ⟨?_, ?_, ?_, ?_⟩ <;> rw [analyzeValue.eq_def]

/-- C6: array inference — the node has `type=array`; an empty array gets no
`items`; otherwise `items` is inferred from the first element alone, and the
result does not depend on the remaining elements in any way. -/
theorem claim_C6_array_first_element (path : String) (stats : AnalysisStatistics)
    (x : JSONValue) (r1 r2 : List JSONValue) :
    analyzeArray [] path stats =
      .ok (Property.mk "array" [] none [] [] [] [] "" none false,
           { stats with typeDistribution := incKey "array" stats.typeDistribution }) ∧
    analyzeArray (x :: r1) path stats =
      (match analyzeValue x (path ++ "[0]")
          { stats with typeDistribution := incKey "array" stats.typeDistribution } with
       | .error e => .error e
       | .ok (ip, stats1) =>
         .ok (Property.mk "array" [] (some ip) [] [] [] [] "" none false, stats1)) ∧
    analyzeArray (x :: r1) path stats = analyzeArray (x :: r2) path stats := by
  refine ⟨?_, ?_, ?_⟩
  · rw [analyzeArray.eq_def]
  · rw [analyzeArray.eq_def]
  · rw [analyzeArray.eq_def, analyzeArray.eq_def]

mutual
/-- The count function the claim describes: one per map entry AND one per
array element. Modelled from the claim's words for comparison with the
source's `countFieldsRecursive`. -/
def countFieldsClaimed : JSONValue → Nat
  | .obj fields => countObjFieldsClaimed fields
  | .arr elems => countArrElemsClaimed elems
  | .null => 0
  | .bool _ => 0
  | .num _ => 0
  | .str _ => 0
def countObjFieldsClaimed : List (String × JSONValue) → Nat
  | [] => 0
  | (_, v) :: rest => 1 + countFieldsClaimed v + countObjFieldsClaimed rest
def countArrElemsClaimed : List JSONValue → Nat
  | [] => 0
  | v :: rest => 1 + countFieldsClaimed v + countArrElemsClaimed rest
end

def c9Input : JSONValue := .arr [.num 1, .num 2, .num 3]

/-- C9 counterexample: on the document `[1,2,3]` the code counts 0 fields —
array elements are recursed into but never counted — while the claim's
"every array element counts as one field" demands 3. -/
theorem claim_C9_counterexample :
    countFieldsRecursive c9Input = 0 ∧ countFieldsClaimed c9Input = 3 := by
  constructor
  · simp [c9Input, countFieldsRecursive.eq_def, countArrElems.eq_def]
  · simp [c9Input, countFieldsClaimed.eq_def, countArrElemsClaimed.eq_def]

theorem countObjFields_eq (fields : List (String × JSONValue)) :
    countObjFields fields =
      fields.length + (fields.map (fun kv => countFieldsRecursive kv.2)).sum := by
  induction fields with
  | nil => rw [countObjFields.eq_def]; simp
  | cons hd tl ih =>
    obtain ⟨k, v⟩ := hd
    rw [countObjFields.eq_def]
    simp [ih]
    omega

theorem countArrElems_eq (elems : List JSONValue) :
    countArrElems elems = (elems.map countFieldsRecursive).sum := by
  induction elems with
  | nil => rw [countArrElems.eq_def]; simp
  | cons hd tl ih =>
    rw [countArrElems.eq_def]
    simp [ih]

/-- C9 amended: the validated-fields count counts exactly one per map entry
(recursing into the entry's value); array elements contribute only their own
nested map entries, not one each; primitives count nothing. -/
theorem claim_C9_amended_count (fields : List (String × JSONValue))
    (elems : List JSONValue) (s : String) (n : Int) (b : Bool) :
    countFieldsRecursive (.obj fields) =
      fields.length + (fields.map (fun kv => countFieldsRecursive kv.2)).sum ∧
    countFieldsRecursive (.arr elems) = (elems.map countFieldsRecursive).sum ∧
    countFieldsRecursive .null = 0 ∧
    countFieldsRecursive (.str s) = 0 ∧
    countFieldsRecursive (.num n) = 0 ∧
    countFieldsRecursive (.bool b) = 0 := by
  refine ⟨?_, ?_, ?_, ?_, ?_, ?_⟩
  · rw [countFieldsRecursive.eq_def]
    simpa using countObjFields_eq fields
  · rw [countFieldsRecursive.eq_def]
    simpa using countArrElems_eq elems
  · rw [countFieldsRecursive.eq_def]
  · rw [countFieldsRecursive.eq_def]
  · rw [countFieldsRecursive.eq_def]
  · rw [countFieldsRecursive.eq_def]

theorem lookupA_mergeOver (k : String) (e n : List (String × Property)) :
    lookupA k (mergeOver e n) =
      (lookupA k e).map (fun p =>
        match lookupA k n with
        | some np => mergeProperty p np
        | none => p) := by
  induction e with
  | nil => rw [mergeOver.eq_def]; simp [lookupA]
  | cons hd tl ih =>
    obtain ⟨k', p'⟩ := hd
    rw [mergeOver.eq_def]
    by_cases hk : k' = k
    · subst hk
      simp [lookupA]
    · simp [lookupA, hk, ih]

theorem lookupA_append {α : Type} (k : String) (a b : List (String × α)) :
    lookupA k (a ++ b) =
      match lookupA k a with
      | some v => some v
      | none => lookupA k b := by
  induction a with
  | nil => simp [lookupA]
  | cons hd tl ih =>
    obtain ⟨k', v'⟩ := hd
    by_cases hk : k' = k
    · subst hk; simp [lookupA]
    · simp [lookupA, hk, ih]

theorem lookupA_filter_keyPred (k : String) (n : List (String × Property))
    (e : List (String × Property)) (he : lookupA k e = none) :
    lookupA k (n.filter (fun kv => (lookupA kv.1 e).isNone)) = lookupA k n := by
  induction n with
  | nil => simp [lookupA]
  | cons hd tl ih =>
    obtain ⟨k', v'⟩ := hd
    by_cases hk : k' = k
    · subst hk
      simp [List.filter, he, lookupA]
    · rw [List.filter]
      by_cases hp : (lookupA k' e).isNone
      · simp only [hp]
        simp [lookupA, hk, ih]
      · simp only [Bool.not_eq_true] at hp
        simp [hp, lookupA, hk, ih]

/-- C4: merging property maps never deletes an existing key (keys absent
from the incoming map keep their existing node), inserts incoming-only keys
verbatim, and replaces a shared key's node by the recursive per-node merge
of the two nodes. -/
theorem claim_C4_merge_frame (e n : List (String × Property)) (k : String) :
    (lookupA k n = none → lookupA k (mergeProperties e n) = lookupA k e) ∧
    (lookupA k e = none → lookupA k (mergeProperties e n) = lookupA k n) ∧
    (∀ p np, lookupA k e = some p → lookupA k n = some np →
      lookupA k (mergeProperties e n) = some (mergeProperty p np)) := by
  refine ⟨?_, ?_, ?_⟩
  · intro hn
    rw [mergeProperties, lookupA_append, lookupA_mergeOver, hn]
    cases he : lookupA k e
    · simp
      rw [lookupA_filter_keyPred k n e he, hn]
    · simp
  · intro he
    rw [mergeProperties, lookupA_append, lookupA_mergeOver, he]
    simp
    exact lookupA_filter_keyPred k n e he
  · intro p np hp hnp
    rw [mergeProperties, lookupA_append, lookupA_mergeOver, hp, hnp]
    simp

def eC4 : List (String × Property) :=
  [("keep", exC2b), ("both", Property.mk "string" [] none [] [] [] [] "" (some (.str "x")) false)]

def nC4 : List (String × Property) :=
  [("both", Property.mk "string" [] none [] [] [] [] "" (some (.str "y")) false),
   ("fresh", Property.mk "number" [] none [] [] [] [] "" (some (.num 9)) false)]

theorem claim_C4_merge_frame_witness :
    lookupA "keep" (mergeProperties eC4 nC4) = lookupA "keep" eC4 ∧
    lookupA "fresh" (mergeProperties eC4 nC4) = lookupA "fresh" nC4 ∧
    lookupA "both" (mergeProperties eC4 nC4) =
      some (mergeProperty
        (Property.mk "string" [] none [] [] [] [] "" (some (.str "x")) false)
        (Property.mk "string" [] none [] [] [] [] "" (some (.str "y")) false)) :=
  ⟨(claim_C4_merge_frame eC4 nC4 "keep").1 rfl,
   (claim_C4_merge_frame eC4 nC4 "fresh").2.1 rfl,
   (claim_C4_merge_frame eC4 nC4 "both").2.2 _ _ rfl rfl⟩

/-- C8: whenever the parsed path starts with a segment accepted by
`strconv.Atoi`, `FindField` fails with the leading-index error, for every
schema. -/
theorem claim_C8_leading_index (schema : JSONSchema) (jsonPath : String)
    (first : String) (rest : List String)
    (hp : parseJSONPath jsonPath = .ok (first :: rest))
    (hn : (atoi first).isSome) :
    FindField schema jsonPath = .error .leadingIndex := by
  rw [FindField, hp]
  simp only []
  rw [findFieldRecursive.eq_def]
  simp [hn]

def sC8 : JSONSchema := JSONSchema.mk "" "object" [] none [] [] [] [] "" none

theorem claim_C8_leading_index_witness :
    FindField sC8 "0.name" = .error .leadingIndex :=
  claim_C8_leading_index sC8 "0.name" "0" ["name"] rfl rfl

theorem lookupA_setKey_self (k : String) (v : Int) (m : List (String × Int)) :
    lookupA k (setKey k v m) = some v := by
  induction m with
  | nil => simp [setKey, lookupA]
  | cons hd tl ih =>
    obtain ⟨k', v'⟩ := hd
    by_cases hk : k' = k
    · subst hk; simp [setKey, lookupA]
    · simp [setKey, hk, lookupA, ih]

theorem lookupA_setKey_other (k k' : String) (v : Int) (m : List (String × Int))
    (h : k' ≠ k) : lookupA k' (setKey k v m) = lookupA k' m := by
  have hk' : ¬(k = k') := fun hh => h hh.symm
  induction m with
  | nil => simp [setKey, lookupA, hk']
  | cons hd tl ih =>
    obtain ⟨k0, v0⟩ := hd
    by_cases hk : k0 = k
    · subst hk
      simp [setKey, lookupA, hk', fun hh : k0 = k' => h hh.symm]
    · simp only [setKey, if_neg hk, lookupA]
      by_cases hk0 : k0 = k'
      · simp [hk0]
      · simp [hk0, ih]

theorem getCount_setKey_self (k : String) (v : Int) (m : List (String × Int)) :
    getCount k (setKey k v m) = v := by
  rw [getCount, lookupA_setKey_self]

theorem getCount_setKey_other (k k' : String) (v : Int) (m : List (String × Int))
    (h : k' ≠ k) : getCount k' (setKey k v m) = getCount k' m := by
  rw [getCount, lookupA_setKey_other k k' v m h, getCount]

theorem getCount_not_mem (k : String) (m : List (String × Int))
    (h : k ∉ m.map Prod.fst) : getCount k m = 0 := by
  induction m with
  | nil => rw [getCount]; simp [lookupA]
  | cons hd tl ih =>
    obtain ⟨k', v'⟩ := hd
    simp only [List.map_cons, List.mem_cons] at h
    push_neg at h
    have hne : ¬(k' = k) := fun hh => h.1 hh.symm
    rw [getCount, lookupA, if_neg hne, ← getCount]
    exact ih h.2

theorem getCount_addCounts (e n : List (String × Int))
    (hn : (n.map Prod.fst).Nodup) (k : String) :
    getCount k (addCounts e n) = getCount k e + getCount k n := by
  induction n generalizing e with
  | nil =>
    rw [addCounts]
    simp
    rw [getCount]
    simp [lookupA]
  | cons hd tl ih =>
    obtain ⟨k0, c0⟩ := hd
    simp at hn
    have step : addCounts e ((k0, c0) :: tl) =
        addCounts (setKey k0 (getCount k0 e + c0) e) tl := by
      simp [addCounts]
    rw [step, ih _ hn.2]
    by_cases hk : k0 = k
    · subst hk
      rw [getCount_setKey_self]
      have h0 : getCount k0 tl = 0 :=
        getCount_not_mem k0 tl (by simpa using fun x hx => hn.1 x hx)
      have hcons : getCount k0 ((k0, c0) :: tl) = c0 := by
        rw [getCount]; simp [lookupA]
      rw [hcons, h0]
      omega
    · rw [getCount_setKey_other _ _ _ _ (fun hh => hk hh.symm)]
      have hcons : getCount k ((k0, c0) :: tl) = getCount k tl := by
        rw [getCount, getCount]; simp [lookupA, hk]
      rw [hcons]

/-- C3 amended: for every pair of merged results, `MergeResults` sums the
two statistics blocks on the field-frequency map (key by key), the
type-distribution map (key by key) and the total-object counts, while
`uniqueStructures` and `enumCandidates` are not summed but keep the
existing side's values; for results where a statistics block is missing on
either side (the nil guard in the source) the existing block is returned
unchanged. -/
theorem claim_C3_statistics_merge (ex nw : AnalysisResult) :
    (∀ es ns, ex.statistics = some es → nw.statistics = some ns →
      (ns.fieldFrequency.map Prod.fst).Nodup →
      (ns.typeDistribution.map Prod.fst).Nodup →
      ∃ ms, (MergeResults ex nw).statistics = some ms ∧
        (∀ k, getCount k ms.fieldFrequency =
          getCount k es.fieldFrequency + getCount k ns.fieldFrequency) ∧
        (∀ k, getCount k ms.typeDistribution =
          getCount k es.typeDistribution + getCount k ns.typeDistribution) ∧
        ms.totalObjects = es.totalObjects + ns.totalObjects ∧
        ms.uniqueStructures = es.uniqueStructures ∧
        ms.enumCandidates = es.enumCandidates) ∧
    ((ex.statistics = none ∨ nw.statistics = none) →
      (MergeResults ex nw).statistics = ex.statistics) := by
  constructor
  · intro es ns he hn hff htd
    have hm : (MergeResults ex nw).statistics = some { es with
        fieldFrequency := addCounts es.fieldFrequency ns.fieldFrequency,
        typeDistribution := addCounts es.typeDistribution ns.typeDistribution,
        totalObjects := es.totalObjects + ns.totalObjects } := by
      rw [MergeResults]
      simp only [he, hn]
    refine ⟨_, hm, ?_, ?_, rfl, rfl, rfl⟩
    · intro k
      exact getCount_addCounts es.fieldFrequency ns.fieldFrequency hff k
    · intro k
      exact getCount_addCounts es.typeDistribution ns.typeDistribution htd k
  · intro hnone
    rw [MergeResults]
    rcases hnone with hnone | hnone
    · simp only [hnone]
    · simp only [hnone]
      cases ex.statistics <;> rfl


/-- Extract the statistics block of a result (empty statistics if absent),
for concrete counterexample and witness statements. -/
def statsOfResult (r : AnalysisResult) : AnalysisStatistics :=
  r.statistics.getD ⟨0, 0, [], [], []⟩

def emptySchemaC3 : JSONSchema := JSONSchema.mk "" "object" [] none [] [] [] [] "" none

def rEC3 : AnalysisResult :=
  ⟨emptySchemaC3, some ⟨2, 0, [("f", 1)], [("object", 2)], []⟩⟩

def rNC3 : AnalysisResult :=
  ⟨emptySchemaC3, some ⟨3, 5, [("f", 2)], [("object", 3)], []⟩⟩

/-- C3 counterexample: `MergeResults` does not sum every statistics field —
`uniqueStructures` (0 on the existing side, 5 on the incoming side) stays 0
in the merged statistics instead of becoming 5. -/
theorem claim_C3_counterexample :
    (statsOfResult (MergeResults rEC3 rNC3)).uniqueStructures = 0 ∧
    (statsOfResult rEC3).uniqueStructures + (statsOfResult rNC3).uniqueStructures = 5 ∧
    (statsOfResult (MergeResults rEC3 rNC3)).uniqueStructures ≠
      (statsOfResult rEC3).uniqueStructures + (statsOfResult rNC3).uniqueStructures :=
  ⟨rfl, rfl, by decide⟩

def rN0C3 : AnalysisResult := ⟨emptySchemaC3, none⟩

theorem claim_C3_statistics_merge_witness :
    getCount "f" (statsOfResult (MergeResults rEC3 rNC3)).fieldFrequency = 3 ∧
    (statsOfResult (MergeResults rEC3 rNC3)).totalObjects = 5 ∧
    (statsOfResult (MergeResults rEC3 rNC3)).uniqueStructures = 0 ∧
    (MergeResults rEC3 rN0C3).statistics = rEC3.statistics := by
  obtain ⟨ms, h1, h2, h3, h4, h5, h6⟩ :=
    (claim_C3_statistics_merge rEC3 rNC3).1
      ⟨2, 0, [("f", 1)], [("object", 2)], []⟩
      ⟨3, 5, [("f", 2)], [("object", 3)], []⟩
      rfl rfl (by decide) (by decide)
  rw [statsOfResult, h1]
  refine ⟨?_, ?_, ?_, (claim_C3_statistics_merge rEC3 rN0C3).2 (Or.inr rfl)⟩
  · rw [Option.getD_some, h2 "f"]
    decide
  · rw [Option.getD_some, h4]
    decide
  · rw [Option.getD_some, h5]

/-- Bool prefix test on character lists (pattern first). -/
def charsLeadWith : List Char → List Char → Bool
  | [], _ => true
  | _ :: _, [] => false
  | c :: cs, d :: ds => c == d && charsLeadWith cs ds

/-- A path segment shaped like a synthetic `oneOf[i]`/`anyOf[i]` marker. -/
def markerish (seg : String) : Bool :=
  charsLeadWith "oneOf[".data seg.data || charsLeadWith "anyOf[".data seg.data

/-- A path that contains no synthetic variant-marker segment. -/
def markerFree (p : String) : Bool :=
  (splitDot p).all (fun seg => !markerish seg)

/-- No `'.'` among the characters. -/
def dotFree : List Char → Bool
  | [] => true
  | c :: rest => !(c == '.') && dotFree rest

/-- A property key that survives the path round-trip: non-empty, free of the
path separator, and not accepted by `strconv.Atoi`. -/
def goodKey (k : String) : Bool :=
  !(k == "") && dotFree k.data && (atoi k).isNone

/-- Go-map well-formedness of an association list: keys pairwise distinct. -/
def keysUnique : List (String × Property) → Bool
  | [] => true
  | (k, _) :: rest => !(rest.any (fun kv => kv.1 == k)) && keysUnique rest

mutual
/-- All property keys reachable in the schema are `goodKey` and all property
maps have unique keys. -/
def goodS : JSONSchema → Bool
  | .mk _ _ props it _ _ oo ao _ _ =>
    goodProps props && goodItems it && goodVariants oo && goodVariants ao && keysUnique props
def goodProps : List (String × Property) → Bool
  | [] => true
  | (k, f) :: rest => goodKey k && goodP f && goodProps rest
def goodP : Property → Bool
  | .mk _ props it _ _ oo ao _ _ _ =>
    goodProps props && goodItems it && goodVariants oo && goodVariants ao && keysUnique props
def goodItems : Option Property → Bool
  | none => true
  | some p => goodP p
def goodVariants : List JSONSchema → Bool
  | [] => true
  | v :: rest => goodS v && goodVariants rest
end

theorem goodS_propertyToSchema (f : Property) :
    goodS (propertyToSchema f) = goodP f := by
  cases f with
  | mk t props it req en oo ao desc d pd =>
    rw [propertyToSchema, goodS.eq_def, goodP.eq_def]

theorem goodProps_mem {props : List (String × Property)} {k : String} {f : Property}
    (hg : goodProps props = true) (hm : (k, f) ∈ props) :
    goodKey k = true ∧ goodP f = true := by
  induction props with
  | nil => simp at hm
  | cons hd tl ih =>
    obtain ⟨k', f'⟩ := hd
    rw [goodProps.eq_def] at hg
    simp only [Bool.and_eq_true] at hg
    rw [List.mem_cons] at hm
    rcases hm with hm | hm
    · injection hm with h1 h2
      subst h1; subst h2
      exact ⟨hg.1.1, hg.1.2⟩
    · exact ih hg.2 hm

theorem goodVariants_get {l : List JSONSchema} {i : Nat} {v : JSONSchema}
    (hg : goodVariants l = true) (hv : l.get? i = some v) : goodS v = true := by
  induction l generalizing i with
  | nil => simp at hv
  | cons hd tl ih =>
    rw [goodVariants.eq_def] at hg
    simp at hg
    cases i with
    | zero => simp at hv; subst hv; exact hg.1
    | succ j => exact ih hg.2 (by simpa using hv)

theorem keysUnique_lookup {props : List (String × Property)} {k : String} {f : Property}
    (hu : keysUnique props = true) (hm : (k, f) ∈ props) :
    lookupA k props = some f := by
  induction props with
  | nil => simp at hm
  | cons hd tl ih =>
    obtain ⟨k', f'⟩ := hd
    rw [keysUnique] at hu
    rw [Bool.and_eq_true] at hu
    rw [List.mem_cons] at hm
    rcases hm with hm | hm
    · injection hm with h1 h2
      subst h1; subst h2
      simp [lookupA]
    · by_cases hne : k' = k
      · exfalso
        subst hne
        have hany : tl.any (fun kv => kv.1 == k') = true :=
          List.any_eq_true.mpr ⟨(k', f), hm, by simp⟩
        have hx := hu.1
        rw [hany] at hx
        simp at hx
      · simp [lookupA, hne, ih hu.2 hm]

theorem digitChar_ne_dot (d : Nat) : digitChar d ≠ '.' := by
  rw [digitChar.eq_def]
  split <;> decide

theorem natChars_ne_dot (n : Nat) : ∀ c ∈ natChars n, c ≠ '.' := by
  induction n using Nat.strong_induction_on with
  | _ n ih =>
    rw [natChars]
    split
    · intro c hc
      simp at hc
      subst hc
      exact digitChar_ne_dot n
    · intro c hc
      rw [List.mem_append] at hc
      rcases hc with hc | hc
      · exact ih (n / 10) (Nat.div_lt_self (by omega) (by omega)) c hc
      · simp at hc
        subst hc
        exact digitChar_ne_dot (n % 10)

theorem natChars_ne_nil (n : Nat) : natChars n ≠ [] := by
  rw [natChars]
  split
  · simp
  · simp

theorem dotFree_iff (l : List Char) : dotFree l = true ↔ ∀ c ∈ l, c ≠ '.' := by
  induction l with
  | nil => simp [dotFree]
  | cons c rest ih =>
    rw [dotFree, Bool.and_eq_true, ih]
    constructor
    · rintro ⟨h1, h2⟩ d hd
      rw [List.mem_cons] at hd
      rcases hd with hd | hd
      · subst hd; simpa using h1
      · exact h2 d hd
    · intro h
      exact ⟨by simpa using h c (by simp), fun d hd => h d (by simp [hd])⟩

theorem charsLeadWith_self_append (a rest : List Char) :
    charsLeadWith a (a ++ rest) = true := by
  induction a with
  | nil => rw [charsLeadWith]
  | cons c cs ih => simpa [charsLeadWith] using ih

theorem mk_data (s : String) : String.mk s.data = s := rfl

theorem data_markerStr (tag : String) (i : Nat) :
    (markerStr tag i).data = tag.data ++ '[' :: (natChars i ++ [']']) := by
  rw [markerStr, natToStr]
  simp [String.data_append]

theorem markerish_markerStr (i : Nat) (tag : String)
    (htag : tag = "oneOf" ∨ tag = "anyOf") :
    markerish (markerStr tag i) = true := by
  rw [markerish, data_markerStr]
  rcases htag with h | h <;> subst h
  · have : ("oneOf".data ++ '[' :: (natChars i ++ [']'])) =
        "oneOf[".data ++ (natChars i ++ [']']) := by simp
    rw [this, charsLeadWith_self_append]
    simp
  · have : ("anyOf".data ++ '[' :: (natChars i ++ [']'])) =
        "anyOf[".data ++ (natChars i ++ [']']) := by simp
    rw [this, charsLeadWith_self_append]
    simp [Bool.or_comm]

theorem markerStr_ne_empty (tag : String) (i : Nat)
    (htag : tag = "oneOf" ∨ tag = "anyOf") : markerStr tag i ≠ "" := by
  intro h
  have := congrArg String.data h
  rw [data_markerStr] at this
  rcases htag with ht | ht <;> subst ht <;> simp at this

theorem markerStr_dotFree (tag : String) (i : Nat)
    (htag : tag = "oneOf" ∨ tag = "anyOf") :
    dotFree (markerStr tag i).data = true := by
  rw [dotFree_iff, data_markerStr]
  intro c hc
  rw [List.mem_append] at hc
  rcases hc with hc | hc
  · rcases htag with ht | ht <;> subst ht
    · have hd : "oneOf".data = ['o', 'n', 'e', 'O', 'f'] := rfl
      rw [hd] at hc
      simp at hc
      rcases hc with hc | hc | hc | hc | hc <;> subst hc <;> decide
    · have hd : "anyOf".data = ['a', 'n', 'y', 'O', 'f'] := rfl
      rw [hd] at hc
      simp at hc
      rcases hc with hc | hc | hc | hc | hc <;> subst hc <;> decide
  · rw [List.mem_cons] at hc
    rcases hc with hc | hc
    · subst hc; decide
    · rw [List.mem_append] at hc
      rcases hc with hc | hc
      · exact natChars_ne_dot i c hc
      · simp at hc; subst hc; decide

theorem splitDotChars_ne_nil (l : List Char) : splitDotChars l ≠ [] := by
  induction l with
  | nil => simp [splitDotChars]
  | cons c rest ih =>
    rw [splitDotChars]
    split
    · simp
    · cases h : splitDotChars rest with
      | nil => exact absurd h ih
      | cons seg segs => simp [h]

theorem splitDotChars_append (a b : List Char) :
    splitDotChars (a ++ '.' :: b) = splitDotChars a ++ splitDotChars b := by
  induction a with
  | nil => simp [splitDotChars]
  | cons c cs ih =>
    by_cases hc : c = '.'
    · subst hc
      have e1 : splitDotChars ('.' :: (cs ++ '.' :: b)) = [] :: splitDotChars (cs ++ '.' :: b) := by
        simp [splitDotChars]
      have e2 : splitDotChars ('.' :: cs) = [] :: splitDotChars cs := by
        simp [splitDotChars]
      simp only [List.cons_append]
      rw [e1, e2, ih]
      simp
    · cases h : splitDotChars cs with
      | nil => exact absurd h (splitDotChars_ne_nil cs)
      | cons seg segs =>
        have e1 : splitDotChars (c :: (cs ++ '.' :: b)) =
            match splitDotChars (cs ++ '.' :: b) with
            | [] => [[c]]
            | seg :: segs => (c :: seg) :: segs := by
          simp [splitDotChars, hc]
        have e2 : splitDotChars (c :: cs) = (c :: seg) :: segs := by
          simp [splitDotChars, hc, h]
        simp only [List.cons_append]
        rw [e1, ih, h, e2]
        simp

theorem splitDotChars_dotFree (l : List Char) (h : dotFree l = true) :
    splitDotChars l = [l] := by
  induction l with
  | nil => rw [splitDotChars]
  | cons c rest ih =>
    rw [dotFree, Bool.and_eq_true] at h
    have hc : ¬(c = '.') := by simpa using h.1
    rw [splitDotChars, if_neg hc, ih h.2]

theorem splitDot_dotFree (s : String) (h : dotFree s.data = true) :
    splitDot s = [s] := by
  rw [splitDot, splitDotChars_dotFree s.data h]
  simp [mk_data]

theorem splitDot_append_dot (a b : String) :
    splitDot (a ++ "." ++ b) = splitDot a ++ splitDot b := by
  rw [splitDot, splitDot, splitDot]
  have hdata : (a ++ "." ++ b).data = a.data ++ '.' :: b.data := by
    simp [String.data_append]
  rw [hdata, splitDotChars_append]
  simp

theorem joinStr_ne (acc x : String) (h : acc ≠ "") :
    joinStr acc x = acc ++ "." ++ x := by
  rw [joinStr, if_neg h]

theorem append_dot_ne_empty (a x : String) : a ++ "." ++ x ≠ "" := by
  intro h
  have := congrArg String.data h
  simp [String.data_append] at this

theorem foldl_joinStr_ne_empty (t : List String) (acc : String) (h : acc ≠ "") :
    t.foldl joinStr acc ≠ "" := by
  induction t generalizing acc with
  | nil => simpa using h
  | cons x rest ih =>
    rw [List.foldl_cons, joinStr_ne acc x h]
    exact ih _ (append_dot_ne_empty acc x)

theorem splitDot_foldl (t : List String) (acc : String) (h : acc ≠ "")
    (hdf : ∀ seg ∈ t, dotFree seg.data = true) :
    splitDot (t.foldl joinStr acc) = splitDot acc ++ t := by
  induction t generalizing acc with
  | nil => simp
  | cons x rest ih =>
    rw [List.foldl_cons, joinStr_ne acc x h]
    rw [ih (acc ++ "." ++ x) (append_dot_ne_empty acc x)
      (fun seg hs => hdf seg (by simp [hs]))]
    rw [splitDot_append_dot, splitDot_dotFree x (hdf x (by simp))]
    simp

theorem foldl_joinStr_data (t : List String) (acc : String) (h : acc ≠ "") :
    ∃ r, (t.foldl joinStr acc).data = acc.data ++ r := by
  induction t generalizing acc with
  | nil => exact ⟨[], by simp⟩
  | cons x rest ih =>
    rw [List.foldl_cons, joinStr_ne acc x h]
    obtain ⟨r, hr⟩ := ih (acc ++ "." ++ x) (append_dot_ne_empty acc x)
    refine ⟨'.' :: x.data ++ r, ?_⟩
    rw [hr]
    simp [String.data_append]

/-- The segment lists of the paths emitted by `listFieldsRecursive`: a field
key, a field key followed by a path into its object schema, a field key and
`"0"` followed by a path into its array item schema, or a synthetic variant
marker followed by a path into that variant. -/
inductive ListedPath : JSONSchema → List String → Prop where
  | here {s : JSONSchema} {k : String} {f : Property} :
      (k, f) ∈ s.properties → ListedPath s [k]
  | child {s : JSONSchema} {k : String} {f : Property} {tail : List String} :
      (k, f) ∈ s.properties → f.type = "object" → ¬f.properties.isEmpty →
      ListedPath (propertyToSchema f) tail → ListedPath s (k :: tail)
  | arrayChild {s : JSONSchema} {k : String} {f it : Property} {tail : List String} :
      (k, f) ∈ s.properties → f.type = "array" → f.items = some it →
      ListedPath (propertyToSchema it) tail → ListedPath s (k :: "0" :: tail)
  | oneOfVar {s : JSONSchema} {i : Nat} {v : JSONSchema} {tail : List String} :
      s.oneOf.get? i = some v → ListedPath v tail →
      ListedPath s (markerStr "oneOf" i :: tail)
  | anyOfVar {s : JSONSchema} {i : Nat} {v : JSONSchema} {tail : List String} :
      s.anyOf.get? i = some v → ListedPath v tail →
      ListedPath s (markerStr "anyOf" i :: tail)

theorem ListedPath.ne_nil {s : JSONSchema} {tail : List String}
    (h : ListedPath s tail) : tail ≠ [] := by
  cases h <;> simp

theorem goodS_parts {u t : String} {props : List (String × Property)}
    {it : Option Property} {req : List String} {en : List JSONValue}
    {oo ao : List JSONSchema} {desc : String} {d : Option JSONValue}
    (hg : goodS (JSONSchema.mk u t props it req en oo ao desc d) = true) :
    goodProps props = true ∧ goodItems it = true ∧ goodVariants oo = true ∧
      goodVariants ao = true ∧ keysUnique props = true := by
  rw [goodS.eq_def] at hg
  simp only [Bool.and_eq_true] at hg
  exact ⟨hg.1.1.1.1, hg.1.1.1.2, hg.1.1.2, hg.1.2, hg.2⟩

theorem goodS_props {s : JSONSchema} (hg : goodS s = true) :
    goodProps s.properties = true ∧ keysUnique s.properties = true := by
  cases s with
  | mk u t props it req en oo ao desc d =>
    have h := goodS_parts hg
    exact ⟨h.1, h.2.2.2.2⟩

theorem goodS_oneOf {s : JSONSchema} (hg : goodS s = true) :
    goodVariants s.oneOf = true := by
  cases s with
  | mk u t props it req en oo ao desc d => exact (goodS_parts hg).2.2.1

theorem goodS_anyOf {s : JSONSchema} (hg : goodS s = true) :
    goodVariants s.anyOf = true := by
  cases s with
  | mk u t props it req en oo ao desc d => exact (goodS_parts hg).2.2.2.1

theorem goodP_items {f it : Property} (hg : goodP f = true)
    (hi : f.items = some it) : goodP it = true := by
  cases f with
  | mk t props i req en oo ao desc d pd =>
    rw [goodP.eq_def] at hg
    simp only [Bool.and_eq_true] at hg
    have := hg.1.1.1.2
    rw [Property.items] at hi
    subst hi
    rw [goodItems] at this
    exact this

theorem goodKey_parts {k : String} (h : goodKey k = true) :
    k ≠ "" ∧ dotFree k.data = true ∧ (atoi k).isSome = false := by
  rw [goodKey] at h
  simp only [Bool.and_eq_true] at h
  refine ⟨by simpa using h.1.1, h.1.2, ?_⟩
  have := h.2
  rw [Option.isNone_iff_eq_none] at this
  rw [this]
  rfl

/-- Every segment of a listed path is non-empty and dot-free (keys by
`goodKey`, the literal `"0"`, variant markers by construction). -/
theorem ListedPath.segs {s : JSONSchema} {tail : List String}
    (h : ListedPath s tail) (hg : goodS s = true) :
    ∀ seg ∈ tail, seg ≠ "" ∧ dotFree seg.data = true := by
  induction h with
  | here hm =>
    intro seg hs
    simp at hs
    subst hs
    have hk := (goodProps_mem (goodS_props hg).1 hm).1
    have := goodKey_parts hk
    exact ⟨this.1, this.2.1⟩
  | child hm ht hne _ ih =>
    intro seg hs
    rw [List.mem_cons] at hs
    rcases hs with hs | hs
    · subst hs
      have hk := (goodProps_mem (goodS_props hg).1 hm).1
      have := goodKey_parts hk
      exact ⟨this.1, this.2.1⟩
    · have hgf := (goodProps_mem (goodS_props hg).1 hm).2
      rw [← goodS_propertyToSchema] at hgf
      exact ih hgf seg hs
  | arrayChild hm ht hit _ ih =>
    intro seg hs
    rw [List.mem_cons] at hs
    rcases hs with hs | hs
    · subst hs
      have hk := (goodProps_mem (goodS_props hg).1 hm).1
      have := goodKey_parts hk
      exact ⟨this.1, this.2.1⟩
    · rw [List.mem_cons] at hs
      rcases hs with hs | hs
      · subst hs
        exact ⟨by decide, by decide⟩
      · have hgf := (goodProps_mem (goodS_props hg).1 hm).2
        have hgi := goodP_items hgf hit
        rw [← goodS_propertyToSchema] at hgi
        exact ih hgi seg hs
  | oneOfVar hv _ ih =>
    intro seg hs
    rw [List.mem_cons] at hs
    rcases hs with hs | hs
    · subst hs
      exact ⟨markerStr_ne_empty _ _ (Or.inl rfl), markerStr_dotFree _ _ (Or.inl rfl)⟩
    · exact ih (goodVariants_get (goodS_oneOf hg) hv) seg hs
  | anyOfVar hv _ ih =>
    intro seg hs
    rw [List.mem_cons] at hs
    rcases hs with hs | hs
    · subst hs
      exact ⟨markerStr_ne_empty _ _ (Or.inr rfl), markerStr_dotFree _ _ (Or.inr rfl)⟩
    · exact ih (goodVariants_get (goodS_anyOf hg) hv) seg hs

/-- The first segment of a listed path is either a good key of the schema or
a variant marker. -/
theorem ListedPath.head_cases {s : JSONSchema} {tail : List String}
    (h : ListedPath s tail) (hg : goodS s = true) :
    (∃ k rest, tail = k :: rest ∧ goodKey k = true) ∨
    (∃ seg rest, tail = seg :: rest ∧ markerish seg = true) := by
  cases h with
  | here hm =>
    exact Or.inl ⟨_, _, rfl, (goodProps_mem (goodS_props hg).1 hm).1⟩
  | child hm _ _ _ =>
    exact Or.inl ⟨_, _, rfl, (goodProps_mem (goodS_props hg).1 hm).1⟩
  | arrayChild hm _ _ _ =>
    exact Or.inl ⟨_, _, rfl, (goodProps_mem (goodS_props hg).1 hm).1⟩
  | oneOfVar hv _ =>
    exact Or.inr ⟨_, _, rfl, markerish_markerStr _ _ (Or.inl rfl)⟩
  | anyOfVar hv _ =>
    exact Or.inr ⟨_, _, rfl, markerish_markerStr _ _ (Or.inr rfl)⟩

theorem joinStr_ne_empty (pfx k : String) (hk : k ≠ "") : joinStr pfx k ≠ "" := by
  rw [joinStr]
  split
  · exact hk
  · exact append_dot_ne_empty pfx k

/-- Characterization motive for `listFieldsRecursive`: every emitted path is
a listed segment sequence folded onto the prefix. -/
abbrev LFCharS (s : JSONSchema) (pfx : String) : Prop :=
  goodS s = true → ∀ p ∈ listFieldsRecursive s pfx,
    ∃ tail, ListedPath s tail ∧ p = tail.foldl joinStr pfx

/-- Characterization motive for `listFieldsVariants`. -/
abbrev LFCharV (l : List JSONSchema) (pfx tag : String) (i : Nat) : Prop :=
  ∀ s : JSONSchema,
    ((tag = "oneOf" ∧ ∀ j v, l.get? j = some v → s.oneOf.get? (i + j) = some v) ∨
     (tag = "anyOf" ∧ ∀ j v, l.get? j = some v → s.anyOf.get? (i + j) = some v)) →
    goodVariants l = true →
    ∀ p ∈ listFieldsVariants l pfx tag i,
      ∃ tail, ListedPath s tail ∧ p = tail.foldl joinStr pfx

/-- Characterization motive for `listFieldsProps`. -/
abbrev LFCharP (l : List (String × Property)) (pfx : String) : Prop :=
  ∀ s : JSONSchema, (∀ e ∈ l, e ∈ s.properties) → goodProps l = true →
    ∀ p ∈ listFieldsProps l pfx,
      ∃ tail, ListedPath s tail ∧ p = tail.foldl joinStr pfx

theorem listFields_char : ∀ (s : JSONSchema) (pfx : String), LFCharS s pfx := by
  apply listFieldsRecursive.induct LFCharS LFCharV LFCharP
  · -- a full schema: split the three emitted blocks
    intro pfx u t props it req en oo ao desc d ih3 ih2oo ih2ao hg p hp
    rw [listFieldsRecursive.eq_def] at hp
    simp only [List.mem_append] at hp
    rcases hp with (hp | hp) | hp
    · exact ih3 _ (fun e he => by simpa [JSONSchema.properties] using he)
        (goodS_parts hg).1 p hp
    · exact ih2oo _ (Or.inl ⟨rfl, fun j v h => by simpa [JSONSchema.oneOf] using h⟩)
        (goodS_parts hg).2.2.1 p hp
    · exact ih2ao _ (Or.inr ⟨rfl, fun j v h => by simpa [JSONSchema.anyOf] using h⟩)
        (goodS_parts hg).2.2.2.1 p hp
  · -- no variants left
    intro pfx tag i s _ _ p hp
    rw [listFieldsVariants.eq_def] at hp
    simp at hp
  · -- one variant plus the remaining ones
    intro v rest pfx tag i ih1 ih2 s hdis hgv p hp
    rw [goodVariants.eq_def, Bool.and_eq_true] at hgv
    rw [listFieldsVariants.eq_def] at hp
    simp only [List.mem_append] at hp
    rcases hp with hp | hp
    · obtain ⟨tail', hlp', hpeq⟩ := ih1 hgv.1 p hp
      refine ⟨markerStr tag i :: tail', ?_, by simp [hpeq]⟩
      rcases hdis with ⟨htag, hget⟩ | ⟨htag, hget⟩ <;> subst htag
      · exact .oneOfVar (by simpa using hget 0 v (by simp)) hlp'
      · exact .anyOfVar (by simpa using hget 0 v (by simp)) hlp'
    · refine ih2 s ?_ hgv.2 p hp
      rcases hdis with ⟨htag, hget⟩ | ⟨htag, hget⟩ <;> subst htag
      · refine Or.inl ⟨rfl, fun j v' h => ?_⟩
        rw [show i + 1 + j = i + (j + 1) by omega]
        exact hget (j + 1) v' (by simpa using h)
      · refine Or.inr ⟨rfl, fun j v' h => ?_⟩
        rw [show i + 1 + j = i + (j + 1) by omega]
        exact hget (j + 1) v' (by simpa using h)
  · -- no properties left
    intro pfx s _ _ p hp
    rw [listFieldsProps.eq_def] at hp
    simp at hp
  · -- one property plus the remaining ones
    intro fieldName field rest pfx fullPath ih1 ih1arr ih3 s hsub hgp p hp
    rw [goodProps.eq_def, Bool.and_eq_true, Bool.and_eq_true] at hgp
    obtain ⟨⟨hgk, hgf⟩, hgr⟩ := hgp
    rw [listFieldsProps.eq_def] at hp
    simp only [List.mem_cons, List.mem_append] at hp
    rcases hp with hp | (hp | hp) | hp
    · exact ⟨[fieldName],
        @ListedPath.here s fieldName field (hsub (fieldName, field) (by simp)),
        by simpa using hp⟩
    · by_cases hc : field.type = "object" ∧ ¬field.properties.isEmpty
      · rw [if_pos hc] at hp
        have hgs : goodS (propertyToSchema field) = true := by
          rw [goodS_propertyToSchema]; exact hgf
        obtain ⟨tail', hlp', hpeq⟩ := ih1 hgs p hp
        exact ⟨fieldName :: tail', .child (hsub _ (by simp)) hc.1 hc.2 hlp',
          by simpa using hpeq⟩
      · rw [if_neg hc] at hp
        simp at hp
    · by_cases hc : field.type = "array"
      · rw [if_pos hc] at hp
        cases hit : field.items with
        | none => rw [hit] at hp; simp at hp
        | some it' =>
          rw [hit] at hp
          have hgs : goodS (propertyToSchema it') = true := by
            rw [goodS_propertyToSchema]; exact goodP_items hgf hit
          obtain ⟨tail'', hlp'', hpeq⟩ := ih1arr it' hit hgs p hp
          refine ⟨fieldName :: "0" :: tail'',
            .arrayChild (hsub _ (by simp)) hc hit hlp'', ?_⟩
          have hfp : fullPath ≠ "" :=
            joinStr_ne_empty pfx fieldName (goodKey_parts hgk).1
          have hdot : fullPath ++ ".0" = joinStr (joinStr pfx fieldName) "0" := by
            rw [joinStr_ne _ _ hfp]
            rw [show (".0" : String) = "." ++ "0" from rfl]
            rw [← String.append_assoc]
          rw [hpeq, List.foldl_cons, List.foldl_cons, ← hdot]
      · rw [if_neg hc] at hp
        simp at hp
    · exact ih3 s (fun e he => hsub e (by simp [he])) hgr p hp

theorem findFieldInSchema_lookup {s : JSONSchema} {k : String} {f : Property}
    (hu : keysUnique s.properties = true) (hm : (k, f) ∈ s.properties) :
    findFieldInSchema s k = .ok f := by
  cases s with
  | mk u t props it req en oo ao desc d =>
    simp only [JSONSchema.properties] at hu hm
    rw [findFieldInSchema.eq_def]
    simp [keysUnique_lookup hu hm]

theorem get_append_len {α : Type} (pre : List α) (x : α) (rest : List α)
    (h : pre.length < (pre ++ x :: rest).length) :
    (pre ++ x :: rest).get ⟨pre.length, h⟩ = x := by
  simp only [List.get_eq_getElem]
  rw [List.getElem_append_right (by omega)]
  simp

theorem get_append_len_succ {α : Type} (pre : List α) (x y : α) (rest : List α)
    (h : pre.length + 1 < (pre ++ x :: y :: rest).length) :
    (pre ++ x :: y :: rest).get ⟨pre.length + 1, h⟩ = y := by
  simp only [List.get_eq_getElem]
  rw [List.getElem_append_right (by omega)]
  simp [show pre.length + 1 - pre.length = 1 by omega]

/-- A listed path with no marker segment resolves successfully from any call
depth: `findFieldRecursive` accepts the remaining segments. -/
theorem find_listed {s : JSONSchema} {tail : List String} (h : ListedPath s tail) :
    goodS s = true → (∀ seg ∈ tail, markerish seg = false) →
    ∀ pre : List String, ∃ g, findFieldRecursive s (pre ++ tail) pre.length = .ok g := by
  induction h with
  | @here s' k f hm =>
    intro hg hmf pre
    have hgk := (goodProps_mem (goodS_props hg).1 hm).1
    have hatoi : (atoi k).isSome = false := (goodKey_parts hgk).2.2
    refine ⟨f, ?_⟩
    rw [findFieldRecursive.eq_def]
    rw [dif_neg (by simp)]
    simp only [get_append_len pre k [] (by simp), hatoi]
    simp only [Bool.false_eq_true, if_false]
    rw [if_pos (by simp)]
    exact findFieldInSchema_lookup (goodS_props hg).2 hm
  | @child s' k f tl hm ht hne hlp ih =>
    intro hg hmf pre
    have hgk := (goodProps_mem (goodS_props hg).1 hm).1
    have hgf := (goodProps_mem (goodS_props hg).1 hm).2
    have hgs : goodS (propertyToSchema f) = true := by
      rw [goodS_propertyToSchema]; exact hgf
    have hatoi : (atoi k).isSome = false := (goodKey_parts hgk).2.2
    rcases ListedPath.head_cases hlp hgs with ⟨k', rest', htl, hgk'⟩ | ⟨seg, rest', htl, hmk⟩
    · subst htl
      have hatoi' : (atoi k').isSome = false := (goodKey_parts hgk').2.2
      obtain ⟨g, hgot⟩ := ih hgs (fun seg hs => hmf seg (by simp [hs])) (pre ++ [k])
      simp only [List.append_assoc, List.singleton_append, List.length_append,
        List.length_cons, List.length_nil] at hgot
      refine ⟨g, ?_⟩
      rw [findFieldRecursive.eq_def]
      rw [dif_neg (by simp)]
      simp only [get_append_len pre k (k' :: rest') (by simp), hatoi]
      simp only [Bool.false_eq_true, if_false]
      rw [if_neg (by simp only [List.length_append, List.length_cons, List.length_nil]; omega)]
      rw [findFieldInSchema_lookup (goodS_props hg).2 hm]
      simp only []
      rw [dif_pos (by simp)]
      simp only [get_append_len_succ pre k k' rest' (by simp), hatoi']
      simp only [Bool.false_eq_true, if_false]
      rw [if_pos ⟨ht, by simpa using hne⟩]
      convert hgot using 2
    · subst htl
      have := hmf seg (by simp)
      rw [hmk] at this
      cases this
  | @arrayChild s' k f it tl hm ht hit hlp ih =>
    intro hg hmf pre
    have hgk := (goodProps_mem (goodS_props hg).1 hm).1
    have hgf := (goodProps_mem (goodS_props hg).1 hm).2
    have hgs : goodS (propertyToSchema it) = true := by
      rw [goodS_propertyToSchema]; exact goodP_items hgf hit
    have hatoi : (atoi k).isSome = false := (goodKey_parts hgk).2.2
    have htl' : tl ≠ [] := hlp.ne_nil
    obtain ⟨g, hgot⟩ := ih hgs (fun seg hs => hmf seg (by simp [hs])) (pre ++ [k, "0"])
    simp only [List.append_assoc, List.cons_append, List.singleton_append,
      List.nil_append, List.length_append, List.length_cons, List.length_nil] at hgot
    refine ⟨g, ?_⟩
    rw [findFieldRecursive.eq_def]
    rw [dif_neg (by simp)]
    simp only [get_append_len pre k ("0" :: tl) (by simp), hatoi]
    simp only [Bool.false_eq_true, if_false]
    rw [if_neg (by
      cases tl with
      | nil => exact absurd rfl htl'
      | cons a b => simp only [List.length_append, List.length_cons, List.length_nil]; omega)]
    rw [findFieldInSchema_lookup (goodS_props hg).2 hm]
    simp only []
    rw [dif_pos (by simp)]
    simp only [get_append_len_succ pre k "0" tl (by simp)]
    rw [if_pos (show ((atoi "0").isSome = true) from rfl)]
    rw [if_pos ⟨ht, by rw [hit]; rfl⟩]
    rw [if_neg (by
      cases tl with
      | nil => exact absurd rfl htl'
      | cons a b => simp only [List.length_append, List.length_cons, List.length_nil]; omega)]
    rw [hit]
    simp only []
    convert hgot using 2
  | @oneOfVar s' i v tl hv hlp ih =>
    intro hg hmf pre
    have := hmf (markerStr "oneOf" i) (by simp)
    rw [markerish_markerStr i "oneOf" (Or.inl rfl)] at this
    cases this
  | @anyOfVar s' i v tl hv hlp ih =>
    intro hg hmf pre
    have := hmf (markerStr "anyOf" i) (by simp)
    rw [markerish_markerStr i "anyOf" (Or.inr rfl)] at this
    cases this

/-- C7 amended: the List→Find round-trip holds for marker-free paths only
when every property key in the schema is non-empty, contains no `'.'`, and
is not accepted by `strconv.Atoi` (and property maps have unique keys):
then every path produced by `ListFields` without a synthetic
`oneOf[i]`/`anyOf[i]` segment is resolved by `FindField` to a node. -/
theorem claim_C7_round_trip (s : JSONSchema) (p : String)
    (hg : goodS s = true) (hp : p ∈ ListFields s) (hmf : markerFree p = true) :
    ∃ f, FindField s p = .ok f := by
  obtain ⟨tail, hlp, hpe⟩ := listFields_char s "" hg p (by rwa [ListFields] at hp)
  have hsegs := hlp.segs hg
  obtain ⟨h0, t0, htl⟩ : ∃ h0 t0, tail = h0 :: t0 := by
    cases tail with
    | nil => exact absurd rfl hlp.ne_nil
    | cons a b => exact ⟨a, b, rfl⟩
  subst htl
  have hh0 : h0 ≠ "" := (hsegs h0 (by simp)).1
  have hfold : (h0 :: t0).foldl joinStr "" = t0.foldl joinStr h0 := by
    rw [List.foldl_cons, joinStr, if_pos rfl]
  have hsplit : splitDot p = h0 :: t0 := by
    rw [hpe, hfold,
      splitDot_foldl t0 h0 hh0 (fun seg hs => (hsegs seg (by simp [hs])).2),
      splitDot_dotFree h0 (hsegs h0 (by simp)).2]
    simp
  have hmf' : ∀ seg ∈ h0 :: t0, markerish seg = false := by
    intro seg hs
    have hm := hmf
    rw [markerFree, hsplit] at hm
    have := List.all_eq_true.mp hm seg hs
    simpa using this
  obtain ⟨g, hfind⟩ := find_listed hlp hg hmf' []
  refine ⟨g, ?_⟩
  rw [FindField]
  have hpne : p ≠ "" := by
    rw [hpe, hfold]
    exact foldl_joinStr_ne_empty t0 h0 hh0
  obtain ⟨r, hr⟩ : ∃ r, p.data = h0.data ++ r := by
    rw [hpe, hfold]
    exact foldl_joinStr_data t0 h0 hh0
  obtain ⟨c, cs, hcs⟩ : ∃ c cs, h0.data = c :: cs := by
    cases hd : h0.data with
    | nil =>
      exfalso
      apply hh0
      cases h0 with
      | mk l =>
        simp at hd
        rw [hd]
    | cons c cs => exact ⟨c, cs, rfl⟩
  have hcdot : c ≠ '.' := by
    have hdf := (hsegs h0 (by simp)).2
    rw [dotFree_iff] at hdf
    exact hdf c (by rw [hcs]; simp)
  have hpfx : hasDotPfx p.data = false := by
    rw [hr, hcs]
    simp [hasDotPfx, hcdot]
  have hparse : parseJSONPath p = .ok (h0 :: t0) := by
    rw [parseJSONPath, if_neg hpne]
    simp only [hpfx, Bool.false_eq_true, if_false]
    have hfil : (splitDot p).filter (fun seg => seg ≠ "") = h0 :: t0 := by
      rw [hsplit]
      rw [List.filter_eq_self]
      intro a ha
      simpa using (hsegs a ha).1
    simp only [hfil]
    rw [if_neg (by simp)]
  rw [hparse]
  simpa using hfind

def sC7bad : JSONSchema :=
  JSONSchema.mk "" "object"
    [("0", Property.mk "string" [] none [] [] [] [] "" none false)]
    none [] [] [] [] "" none

/-- C7 counterexample: a schema with a property literally named `"0"`.
`ListFields` emits the marker-free path `"0"`, but `FindField` rejects it
with the leading-index error, so the round-trip fails as claimed. -/
theorem claim_C7_counterexample :
    "0" ∈ ListFields sC7bad ∧ markerFree "0" = true ∧
      FindField sC7bad "0" = .error .leadingIndex := by
  refine ⟨?_, by decide, ?_⟩
  · simp [ListFields, sC7bad, listFieldsRecursive.eq_def, listFieldsProps.eq_def,
      listFieldsVariants.eq_def, joinStr, Property.type, Property.properties,
      Property.items]
  · rw [FindField]
    rw [show parseJSONPath "0" = .ok ["0"] from rfl]
    simp only []
    rw [findFieldRecursive.eq_def]
    simp [show (atoi "0").isSome = true from rfl]

def sC7good : JSONSchema :=
  JSONSchema.mk "" "object"
    [("name", Property.mk "string" [] none [] [] [] [] "" none false)]
    none [] [] [] [] "" none

/-- Bool success test for `Except`, used in closed witness statements. -/
def exceptIsOk : Except FindErr Property → Bool
  | .ok _ => true
  | .error _ => false

theorem claim_C7_round_trip_witness :
    goodS sC7good = true ∧ "name" ∈ ListFields sC7good ∧
      markerFree "name" = true ∧ exceptIsOk (FindField sC7good "name") = true := by
  have h1 : goodS sC7good = true := by
    simp [sC7good, goodS.eq_def, goodProps.eq_def, goodP.eq_def, goodItems.eq_def,
      goodVariants.eq_def, keysUnique, goodKey, dotFree, atoi, parseAllDigits]
  have h2 : "name" ∈ ListFields sC7good := by
    simp [ListFields, sC7good, listFieldsRecursive.eq_def, listFieldsProps.eq_def,
      listFieldsVariants.eq_def, joinStr, Property.type, Property.properties,
      Property.items]
  have h3 : markerFree "name" = true := by decide
  obtain ⟨f, hf⟩ := claim_C7_round_trip sC7good "name" h1 h2 h3
  exact ⟨h1, h2, h3, by rw [hf, exceptIsOk]⟩
